import Mathlib

/-!
Verification development for the lucai-cli code-review pipeline
(`lib/reviewer.js` and its action-variant copy).

The JavaScript source is shallowly embedded: pure string manipulation is
translated into executable Lean functions over `String`/`List Char`; the
floating-point token arithmetic of the chunk splitter is modelled over `ℚ`;
line numbers and scores (JSON numbers) are modelled as `Int`; external
effects (provider API calls, the tiktoken tokenizer, credential lookup) are
parameters of the embedding, and the review orchestrator is a deterministic
function of an environment that fixes those oracles.  `JSON.parse` is
modelled by a small executable parser of the JSON grammar, and JavaScript
truthiness tests on numbers/strings/`undefined` are translated explicitly
at each use site.
-/

namespace Lucai

/-! ## String helpers shared by the embedding

JavaScript's `String.prototype.trim` and the regex class `\s` treat the
usual ASCII whitespace (space, tab, LF, CR) as blank; every string handled
by the reviewer is ASCII, so this predicate is the faithful restriction. -/

def wsChar (c : Char) : Bool :=
  c = ' ' || c = '\t' || c = '\n' || c = '\r'

def trimL (cs : List Char) : List Char := cs.dropWhile wsChar

def trimR (cs : List Char) : List Char := (cs.reverse.dropWhile wsChar).reverse

/-- First index of a character in a list, JS `String.prototype.indexOf`. -/
def idxOf : List Char → Char → Option Nat
  | [], _ => none
  | c :: cs, t => if c = t then some 0 else (idxOf cs t).map (· + 1)

/-- JS `content.split('\n')`: split at every newline; an empty string gives
`[""]`, and trailing separators produce trailing empty pieces. -/
def splitLinesAux : List Char → List Char → List String
  | [], acc => [String.mk acc.reverse]
  | c :: cs, acc =>
    if c = '\n' then String.mk acc.reverse :: splitLinesAux cs []
    else splitLinesAux cs (c :: acc)

def splitLines (content : String) : List String :=
  splitLinesAux content.data []

/-- JS `String.prototype.substring`: clamps and swaps its endpoints. -/
def jsSubstring (s : String) (a b : Nat) : String :=
  String.mk ((s.data.drop (min a b)).take (max a b - min a b))

/-! ## The two Response Parser cleaners

`lib/reviewer.js` lines 209–215 (the CLI reviewer used by `bin/lucai.js`):

```js
function cleanJsonString(jsonString) {
  return jsonString
    .replace(/^```json\s*/, '')
    .replace(/\s*```$/, '')
    .trim();
}
```

The first regex only fires when the string literally starts with the fence,
the second only when it literally ends with one. -/

def cleanJsonString (s : String) : String :=
  let cs := s.data
  let step1 := if "```json".data.isPrefixOf cs then trimL (cs.drop 7) else cs
  let step2 :=
    if "```".data.isSuffixOf step1 then trimR (step1.take (step1.length - 3))
    else step1
  String.mk (trimL (trimR step2))

/-- The action-variant reviewer's `cleanJsonString` (same function name in
its own copy of `lib/reviewer.js`): locate the first `'\x7b'` and the last
`'\x7d'` in the text and return the inclusive substring; throws when either
brace is missing. -/
def cleanJsonStringAction (text : String) : Except String String :=
  let cs := text.data
  match idxOf cs '\x7b', idxOf cs.reverse '\x7d' with
  | some firstBrace, some revLast =>
      let lastBrace := cs.length - 1 - revLast
      Except.ok (jsSubstring text firstBrace (lastBrace + 1))
  | _, _ => Except.error "No valid JSON object found in the AI response."

/-! ## A model of `JSON.parse`

Executable recursive-descent parser of the JSON grammar (RFC 8259, the
grammar `JSON.parse` implements): a value surrounded by optional
whitespace, with objects, arrays, strings with escapes, numbers, and the
three literals.  `JSON.parse` throwing is modelled by `none`. -/

inductive Json where
  | null
  | bool (b : Bool)
  | num (q : ℚ)
  | str (s : String)
  | arr (elems : List Json)
  | obj (members : List (String × Json))
deriving Repr

def skipWs : List Char → List Char
  | [] => []
  | c :: cs => if wsChar c then skipWs cs else c :: cs

def hexVal (c : Char) : Option Nat :=
  if c.isDigit then some (c.toNat - '0'.toNat)
  else if 'a' ≤ c ∧ c ≤ 'f' then some (c.toNat - 'a'.toNat + 10)
  else if 'A' ≤ c ∧ c ≤ 'F' then some (c.toNat - 'A'.toNat + 10)
  else none

def parseStrBody : List Char → List Char → Option (String × List Char)
  | [], _ => none
  | '"' :: rest, acc => some (String.mk acc.reverse, rest)
  | '\\' :: 'u' :: h1 :: h2 :: h3 :: h4 :: rest, acc =>
    match hexVal h1, hexVal h2, hexVal h3, hexVal h4 with
    | some a, some b, some c, some d =>
      parseStrBody rest (Char.ofNat (((a * 16 + b) * 16 + c) * 16 + d) :: acc)
    | _, _, _, _ => none
  | '\\' :: e :: rest, acc =>
    if e = '"' then parseStrBody rest ('"' :: acc)
    else if e = '\\' then parseStrBody rest ('\\' :: acc)
    else if e = '/' then parseStrBody rest ('/' :: acc)
    else if e = 'b' then parseStrBody rest ('\x08' :: acc)
    else if e = 'f' then parseStrBody rest ('\x0c' :: acc)
    else if e = 'n' then parseStrBody rest ('\n' :: acc)
    else if e = 'r' then parseStrBody rest ('\r' :: acc)
    else if e = 't' then parseStrBody rest ('\t' :: acc)
    else none
  | c :: rest, acc => if c.toNat < 32 then none else parseStrBody rest (c :: acc)

def digitsVal : List Char → Nat → Nat
  | [], acc => acc
  | c :: cs, acc => digitsVal cs (acc * 10 + (c.toNat - '0'.toNat))

def takeDigits : List Char → List Char × List Char
  | [] => ([], [])
  | c :: cs =>
    if c.isDigit then
      let r := takeDigits cs
      (c :: r.1, r.2)
    else ([], c :: cs)

def pow10 (k : Nat) : ℚ := (10 : ℚ) ^ k

def parseExp (v : ℚ) (t : List Char) : Option (ℚ × List Char) :=
  let signed := match t with
    | '+' :: u => (false, u)
    | '-' :: u => (true, u)
    | _ => (false, t)
  match takeDigits signed.2 with
  | ([], _) => none
  | (es, rest) =>
    let e := digitsVal es 0
    some (if signed.1 then v / pow10 e else v * pow10 e, rest)

def parseNum (cs : List Char) : Option (ℚ × List Char) :=
  let signed := match cs with
    | '-' :: t => (true, t)
    | _ => (false, cs)
  match takeDigits signed.2 with
  | ([], _) => none
  | (ds, rest1) =>
    if ds.length > 1 ∧ ds.headD '0' = '0' then none
    else
      let ipart : ℚ := (digitsVal ds 0 : ℚ)
      let withFrac : Option (ℚ × List Char) :=
        match rest1 with
        | '.' :: t =>
          match takeDigits t with
          | ([], _) => none
          | (fs, rest2) => some (ipart + (digitsVal fs 0 : ℚ) / pow10 fs.length, rest2)
        | _ => some (ipart, rest1)
      match withFrac with
      | none => none
      | some (v, rest2) =>
        let withExp : Option (ℚ × List Char) :=
          match rest2 with
          | 'e' :: t => parseExp v t
          | 'E' :: t => parseExp v t
          | _ => some (v, rest2)
        match withExp with
        | none => none
        | some (v2, rest3) => some (if signed.1 then -v2 else v2, rest3)

mutual

def parseVal : Nat → List Char → Option (Json × List Char)
  | 0, _ => none
  | fuel + 1, cs =>
    match skipWs cs with
    | 'n' :: 'u' :: 'l' :: 'l' :: rest => some (Json.null, rest)
    | 't' :: 'r' :: 'u' :: 'e' :: rest => some (Json.bool true, rest)
    | 'f' :: 'a' :: 'l' :: 's' :: 'e' :: rest => some (Json.bool false, rest)
    | '"' :: rest => (parseStrBody rest []).map (fun p => (Json.str p.1, p.2))
    | '[' :: rest =>
      match skipWs rest with
      | ']' :: rest2 => some (Json.arr [], rest2)
      | other => parseArrRest fuel other []
    | '\x7b' :: rest =>
      match skipWs rest with
      | '\x7d' :: rest2 => some (Json.obj [], rest2)
      | other => parseObjRest fuel other []
    | c :: rest =>
      if c = '-' ∨ c.isDigit then (parseNum (c :: rest)).map (fun p => (Json.num p.1, p.2))
      else none
    | [] => none

def parseArrRest : Nat → List Char → List Json → Option (Json × List Char)
  | 0, _, _ => none
  | fuel + 1, cs, acc =>
    match parseVal fuel cs with
    | none => none
    | some (v, rest) =>
      match skipWs rest with
      | ',' :: rest2 => parseArrRest fuel rest2 (acc ++ [v])
      | ']' :: rest2 => some (Json.arr (acc ++ [v]), rest2)
      | _ => none

def parseObjRest : Nat → List Char → List (String × Json) → Option (Json × List Char)
  | 0, _, _ => none
  | fuel + 1, cs, acc =>
    match skipWs cs with
    | '"' :: rest =>
      match parseStrBody rest [] with
      | none => none
      | some (k, rest2) =>
        match skipWs rest2 with
        | ':' :: rest3 =>
          match parseVal fuel rest3 with
          | none => none
          | some (v, rest4) =>
            match skipWs rest4 with
            | ',' :: rest5 => parseObjRest fuel rest5 (acc ++ [(k, v)])
            | '\x7d' :: rest5 => some (Json.obj (acc ++ [(k, v)]), rest5)
            | _ => none
        | _ => none
    | _ => none

end

def jsonParse (s : String) : Option Json :=
  match parseVal (s.length + 1) s.data with
  | some (v, rest) => if skipWs rest = [] then some v else none
  | none => none

/-- The CLI reviewer's Response Parser pipeline:
`JSON.parse(cleanJsonString(textResponse))`; `none` models the throw. -/
def parseResponseCli (text : String) : Option Json :=
  jsonParse (cleanJsonString text)

/-- The action-variant reviewer's Response Parser pipeline:
`JSON.parse(cleanJsonString(textResponse))` with its brace-extracting
cleaner; `none` models the throw of either stage. -/
def parseResponseAction (text : String) : Option Json :=
  match cleanJsonStringAction text with
  | Except.error _ => none
  | Except.ok s => jsonParse s

/-! ## Provider resolution and the token estimator (`countTokens`) -/

inductive Provider where
  | google
  | openai
deriving DecidableEq, Repr

/-- `model.startsWith('gemini') ? 'google' : 'openai'`. -/
def providerOf (model : String) : Provider :=
  if "gemini".data.isPrefixOf model.data then Provider.google else Provider.openai

/-- `lib/reviewer.js` lines 153–168.  The credential store (`getApiKey`),
Gemini's `countTokens` endpoint (`googleCount`) and the cl100k_base
tiktoken encoder (`tiktokenCount`) are oracles of the embedding; JS
`!apiKey` is true for both `undefined` and the empty string.  The fallback
branch divides exactly, as JS number division does. -/
def countTokens (getApiKey : Provider → Option String) (googleCount : String → ℚ)
    (tiktokenCount : String → Nat) (text : String) (model : String) : ℚ :=
  match providerOf model with
  | Provider.google =>
    if (getApiKey Provider.google).getD "" = "" then (text.length : ℚ) / 4
    else googleCount text
  | Provider.openai => (tiktokenCount text : ℚ)

/-! ## The chunk splitter (`splitCodeIntoChunks`, lines 170–206)

The per-call token count is abstracted to an arbitrary estimator
`est : String → ℚ` (in the orchestrator it is instantiated with
`countTokens`).  `i` is the 0-based index of the line about to be
processed, `cur` the accumulated `currentChunkLines`, `tok` the running
`currentChunkTokens`.  `cur.length - 50` is JS
`Math.max(0, currentChunkLines.length - overlapLines)` thanks to truncated
`Nat` subtraction. -/

structure Chunk where
  content : String
  startLine : Nat
deriving Repr, DecidableEq

def splitGo (est : String → ℚ) (maxTokensPerChunk : ℚ) :
    List String → Nat → List String → ℚ → List Chunk
  | [], i, cur, _ =>
    if cur = [] then []
    else [⟨String.intercalate "\n" cur, i + 1 - cur.length⟩]
  | l :: rest, i, cur, tok =>
    let lineTokens := est (l ++ "\n")
    if tok + lineTokens > maxTokensPerChunk ∧ cur ≠ [] then
      ⟨String.intercalate "\n" cur, i + 1 - cur.length⟩ ::
        splitGo est maxTokensPerChunk rest (i + 1)
          (cur.drop (cur.length - 50) ++ [l])
          (est (String.intercalate "\n" (cur.drop (cur.length - 50))) + lineTokens)
    else
      splitGo est maxTokensPerChunk rest (i + 1) (cur ++ [l]) (tok + lineTokens)

def splitCodeIntoChunks (est : String → ℚ) (content : String)
    (maxTokensPerChunk : ℚ) : List Chunk :=
  splitGo est maxTokensPerChunk (splitLines content) 0 [] 0

/-! ## Parsed results, line adjustment and chunk aggregation -/

/-- One element of a finding/fix array in a parsed model response.  `line`
is `none` when the JSON object lacks the key (JS `undefined`); non-line
data (description / explanation+code) is irrelevant to the adjustment
logic and collapsed into `payload`. -/
structure Item where
  line : Option Int
  payload : String
deriving Repr, DecidableEq

/-- A parsed model response for one chunk or one file.  Absent JSON keys
are `none`; the parse-failure substitution object is the all-`none`
record. -/
structure ChunkResult where
  dangers : Option (List Item)
  issues : Option (List Item)
  suggestions : Option (List Item)
  good_practices : Option (List Item)
  fix : Option (List Item)
  score : Option Int
  summary : Option String
deriving Repr, DecidableEq

def emptyResult : ChunkResult := ⟨none, none, none, none, none, none, none⟩

/-- Body of the per-item loop in lines 292–296: `if (item.line)` is JS
truthiness, so an absent or zero line is left untouched. -/
def adjustItem (startLine : Nat) (it : Item) : Item :=
  match it.line with
  | some l => if l ≠ 0 then ⟨some (l + (startLine : Int) - 1), it.payload⟩ else it
  | none => it

/-- Lines 289–298: every array-valued key of the parsed result has its
items' `line` fields shifted by `startLine - 1`.  The record's array
fields are exactly the arrays a parsed response carries. -/
def adjustResult (startLine : Nat) (r : ChunkResult) : ChunkResult :=
  ⟨r.dangers.map (List.map (adjustItem startLine)),
   r.issues.map (List.map (adjustItem startLine)),
   r.suggestions.map (List.map (adjustItem startLine)),
   r.good_practices.map (List.map (adjustItem startLine)),
   r.fix.map (List.map (adjustItem startLine)),
   r.score, r.summary⟩

inductive FieldKind where
  | dangers
  | issues
  | suggestions
  | goodPractices
  | fixes
deriving DecidableEq, Repr

/-- The finding/fix array of a result under one key, with JS `x || []`
defaulting. -/
def fieldArr (fk : FieldKind) (r : ChunkResult) : List Item :=
  match fk with
  | FieldKind.dangers => r.dangers.getD []
  | FieldKind.issues => r.issues.getD []
  | FieldKind.suggestions => r.suggestions.getD []
  | FieldKind.goodPractices => r.good_practices.getD []
  | FieldKind.fixes => r.fix.getD []

/-- JS `Math.round`: round half toward positive infinity. -/
def jsRound (q : ℚ) : Int := ⌊q + 1 / 2⌋

/-- Line 312: `Math.round(chunkReviews.reduce((sum, r) => sum + (r.score || 0), 0)
/ chunkReviews.length) || 0`.  Division by zero gives `NaN`, `Math.round(NaN)`
is `NaN`, and `NaN || 0` is `0`; otherwise the trailing `|| 0` maps `0` to
itself. -/
def aggScore (scores : List (Option Int)) : Int :=
  if scores.length = 0 then 0
  else jsRound ((((scores.map (fun s => s.getD 0)).sum : Int) : ℚ) / (scores.length : ℚ))

/-- JS template-literal stringification of a possibly-`undefined` value. -/
def jsShow (s : Option String) : String := s.getD "undefined"

/-- Line 313: `chunkReviews.map((r, i) => "Chunk " + (i+1) + ": " + r.summary)
.join('\n') || "Review completed for large file."`.  The fallback fires only
when the joined string is empty (JS falsy). -/
def aggSummary (summaries : List (Option String)) : String :=
  let joined := String.intercalate "\n"
    (summaries.enum.map (fun p => "Chunk " ++ toString (p.1 + 1) ++ ": " ++ jsShow p.2))
  if joined = "" then "Review completed for large file." else joined

/-- Lines 306–314: concatenate the five arrays across chunks in order
(missing arrays contribute nothing), average the scores, join the
summaries. -/
def aggregateChunkReviews (chunkReviews : List ChunkResult) : ChunkResult :=
  ⟨some ((chunkReviews.map (fun r => r.dangers.getD [])).flatten),
   some ((chunkReviews.map (fun r => r.issues.getD [])).flatten),
   some ((chunkReviews.map (fun r => r.suggestions.getD [])).flatten),
   some ((chunkReviews.map (fun r => r.good_practices.getD [])).flatten),
   some ((chunkReviews.map (fun r => r.fix.getD [])).flatten),
   some (aggScore (chunkReviews.map (fun r => r.score))),
   some (aggSummary (chunkReviews.map (fun r => r.summary)))⟩

/-! ## The review orchestrator (`performReview`, lines 224–372) -/

inductive PromptKind where
  | standard
  | singleFile
  | diff
deriving DecidableEq, Repr

/-- Lines 241–248: the diff prompt wins over the single-file prompt, which
wins over the standard prompt.  The prompt texts themselves are opaque to
every verified property, so the selector returns the template's identity. -/
def selectPrompt (isSingleFile isDiffReview : Bool) : PromptKind :=
  if isDiffReview then PromptKind.diff
  else if isSingleFile then PromptKind.singleFile
  else PromptKind.standard

/-- Lines 12–18, the static model → context-window table. -/
def CONTEXT_WINDOWS (model : String) : Option Nat :=
  if model = "gpt-4o" then some 128000
  else if model = "gpt-4-turbo" then some 128000
  else if model = "gpt-4" then some 8192
  else if model = "gemini-1.5-pro-latest" then some 1048576
  else if model = "gemini-1.0-pro" then some 30720
  else none

/-- Outcome of one model invocation, as the orchestrator observes it:
the call throws (network/provider failure), or it returns text whose
parse succeeds (`reply (some r)`) or fails (`reply none`, the caught
JSON-parse error that is substituted by the empty result). -/
inductive CallOutcome where
  | netError
  | reply (parsed : Option ChunkResult)

/-- Externally observable actions of one `performReview` run, in order. -/
inductive Event where
  | modelCall (prompt : PromptKind)
  | progress (done total : Nat)
  | summaryCall
deriving DecidableEq, Repr

structure SourceFile where
  path : String
  content : String
  diff : Option String
deriving Repr, DecidableEq

/-- `{ path: file.path, ...result, diff: file.diff }`. -/
structure FileReview where
  path : String
  dangers : Option (List Item)
  issues : Option (List Item)
  suggestions : Option (List Item)
  good_practices : Option (List Item)
  fix : Option (List Item)
  score : Option Int
  summary : Option String
  diff : Option String
deriving Repr, DecidableEq

/-- The aggregated result; `none` models a deleted key (single-file
mode). -/
structure ReviewResult where
  files : List FileReview
  summary : Option String
  score : Option Int
deriving Repr, DecidableEq

inductive ReviewError where
  | missingCredential (provider : Provider)
deriving DecidableEq, Repr

/-- All external dependencies of one `performReview` run: credential
store, the two token-count oracles, the model-call oracle indexed by call
order, and the text the summary-generation call would produce
(`generateOverallSummary` catches its own errors and always yields a
string). -/
structure ReviewEnv where
  getApiKey : Provider → Option String
  googleCount : String → ℚ
  tiktokenCount : String → Nat
  calls : Nat → CallOutcome
  summaryText : String

/-- Lines 261–303, the per-chunk loop: one model call per chunk; a thrown
call skips the chunk, a parse failure contributes the empty result; the
parsed result has its line numbers adjusted by the chunk's start line
before being collected. -/
def runChunks (env : ReviewEnv) (prompt : PromptKind) :
    List Chunk → Nat → List ChunkResult × Nat × List Event
  | [], idx => ([], idx, [])
  | c :: cs, idx =>
    match env.calls idx with
    | CallOutcome.netError =>
      let r := runChunks env prompt cs (idx + 1)
      (r.1, r.2.1, Event.modelCall prompt :: r.2.2)
    | CallOutcome.reply parsed =>
      let r := runChunks env prompt cs (idx + 1)
      (adjustResult c.startLine (parsed.getD emptyResult) :: r.1, r.2.1,
        Event.modelCall prompt :: r.2.2)

/-- Lines 255–315, the chunked path for one oversized file: split, review
every chunk, aggregate, and build the FileReview carrying the file's
`diff` through. -/
def chunkedReview (env : ReviewEnv) (prompt : PromptKind) (model : String)
    (maxTokens : Nat) (file : SourceFile) (idx : Nat) :
    FileReview × Nat × List Event :=
  let est := fun s => countTokens env.getApiKey env.googleCount env.tiktokenCount s model
  let rc := runChunks env prompt
    (splitCodeIntoChunks est file.content ((maxTokens : ℚ) * (9 / 10))) idx
  let agg := aggregateChunkReviews rc.1
  (⟨file.path, agg.dangers, agg.issues, agg.suggestions, agg.good_practices,
     agg.fix, agg.score, agg.summary, file.diff⟩, rc.2.1, rc.2.2)

/-- Lines 252–354, the file loop: choose the chunked or the direct path by
the 90%-of-context-window threshold; on the direct path a thrown call
skips the file entirely and a parse failure contributes the empty result;
`onProgress(index + 1, files.length)` fires after every file either
way. -/
def reviewLoop (env : ReviewEnv) (prompt : PromptKind) (model : String)
    (maxTokens : Nat) (total : Nat) :
    List SourceFile → Nat → Nat → List FileReview × Nat × List Event
  | [], _, idx => ([], idx, [])
  | file :: rest, pos, idx =>
    if countTokens env.getApiKey env.googleCount env.tiktokenCount file.content model
        > (maxTokens : ℚ) * (9 / 10) then
      let cr := chunkedReview env prompt model maxTokens file idx
      let rl := reviewLoop env prompt model maxTokens total rest (pos + 1) cr.2.1
      (cr.1 :: rl.1, rl.2.1, cr.2.2 ++ Event.progress (pos + 1) total :: rl.2.2)
    else
      match env.calls idx with
      | CallOutcome.netError =>
        let rl := reviewLoop env prompt model maxTokens total rest (pos + 1) (idx + 1)
        (rl.1, rl.2.1,
          Event.modelCall prompt :: Event.progress (pos + 1) total :: rl.2.2)
      | CallOutcome.reply parsed =>
        let r := parsed.getD emptyResult
        let rl := reviewLoop env prompt model maxTokens total rest (pos + 1) (idx + 1)
        (⟨file.path, r.dangers, r.issues, r.suggestions, r.good_practices,
           r.fix, r.score, r.summary, file.diff⟩ :: rl.1, rl.2.1,
          Event.modelCall prompt :: Event.progress (pos + 1) total :: rl.2.2)

/-- Lines 366–367: `Math.round(totalScore / reviewResults.length)` over the
file reviews' `r.score || 0`. -/
def overallScore (files : List FileReview) : Int :=
  jsRound ((((files.map (fun r => r.score.getD 0)).sum : Int) : ℚ) / (files.length : ℚ))

/-- Lines 224–372, `performReview(files, model, isSingleFile, isDiffReview,
onProgress)`.  Returns the outcome together with the ordered trace of
observable events (model calls, progress callbacks, the secondary
summary-generation call).  A missing (or empty, JS-falsy) credential for
the provider resolved from the model name throws before anything else
happens. -/
def performReview (env : ReviewEnv) (files : List SourceFile) (model : String)
    (isSingleFile isDiffReview : Bool) :
    Except ReviewError ReviewResult × List Event :=
  let provider := providerOf model
  if (env.getApiKey provider).getD "" = "" then
    (Except.error (ReviewError.missingCredential provider), [])
  else
    let prompt := selectPrompt isSingleFile isDiffReview
    let maxTokens := (CONTEXT_WINDOWS model).getD 2048
    let lp := reviewLoop env prompt model maxTokens files.length files 0 0
    if isSingleFile then
      (Except.ok ⟨lp.1, none, none⟩, lp.2.2)
    else if lp.1.length > 0 then
      (Except.ok ⟨lp.1, some env.summaryText, some (overallScore lp.1)⟩,
        lp.2.2 ++ [Event.summaryCall])
    else
      (Except.ok ⟨lp.1, some "Overall review summary across all files.", some 0⟩,
        lp.2.2)

/-! ## Structural properties of the chunk splitter -/

/-- Specification predicate for the chunk list produced from line position
`s` (0-based): each chunk is the `"\n"`-join of a contiguous slice of the
original lines; the first slice begins exactly at `s` and has at least
`lo` lines; every later chunk starts `min 50 n` lines before the end of
its `n`-line predecessor (the overlap seed, which the successor extends by
at least one fresh line); and the final chunk's slice ends exactly at the
last line of the file. -/
def ChunkChain (lines : List String) : Nat → Nat → List Chunk → Prop
  | s, _, [] => s = lines.length
  | s, lo, c :: cs =>
    ∃ n, lo ≤ n ∧ 1 ≤ n ∧ s + n ≤ lines.length ∧
      c.startLine = s + 1 ∧
      c.content = String.intercalate "\n" ((lines.drop s).take n) ∧
      (if cs = [] then s + n = lines.length
       else ChunkChain lines (s + n - min 50 n) (min 50 n + 1) cs)

theorem chain_mono (lines : List String) :
    ∀ (cs : List Chunk) (s lo lo' : Nat), lo ≤ lo' →
      ChunkChain lines s lo' cs → ChunkChain lines s lo cs := by
  intro cs
  induction cs with
  | nil => intro s lo lo' _ h; exact h
  | cons c cs ih =>
    intro s lo lo' hlo h
    obtain ⟨n, hn, h1, hle, hs, hc, hrest⟩ := h
    exact ⟨n, le_trans hlo hn, h1, hle, hs, hc, hrest⟩

theorem splitGo_ne_nil (est : String → ℚ) (maxTok : ℚ) :
    ∀ (rest : List String) (i : Nat) (cur : List String) (tok : ℚ),
      cur ≠ [] → splitGo est maxTok rest i cur tok ≠ [] := by
  intro rest
  induction rest with
  | nil =>
    intro i cur tok hcur
    simp only [splitGo]
    rw [if_neg hcur]
    simp
  | cons l rest ih =>
    intro i cur tok hcur
    simp only [splitGo]
    by_cases hc : tok + est (l ++ "\n") > maxTok ∧ cur ≠ []
    · rw [if_pos hc]; simp
    · rw [if_neg hc]
      exact ih (i + 1) (cur ++ [l]) (tok + est (l ++ "\n")) (by simp)

theorem splitLinesAux_ne_nil : ∀ (cs acc : List Char), splitLinesAux cs acc ≠ [] := by
  intro cs
  induction cs with
  | nil => intro acc; simp [splitLinesAux]
  | cons c cs ih =>
    intro acc
    simp only [splitLinesAux]
    by_cases h : c = '\n'
    · rw [if_pos h]; simp
    · rw [if_neg h]; exact ih (c :: acc)

theorem splitLines_ne_nil (content : String) : splitLines content ≠ [] :=
  splitLinesAux_ne_nil content.data []

/-- Slices read back correctly: position `j` inside the `n`-line slice that
starts at `s'` is original line `s' + j`. -/
theorem slice_get (lines : List String) (s' n j : Nat) (hj : j < n) :
    ((lines.drop s').take n)[j]? = lines[s' + j]? := by
  rw [List.getElem?_take_of_lt hj, List.getElem?_drop]

/-- The main loop invariant of `splitCodeIntoChunks`: from a state where
`cur` holds exactly the `cur.length` original lines preceding position `i`
and `rest` is the remainder of the file, the emitted chunks form a
`ChunkChain` starting at the first line of `cur`. -/
theorem splitGo_chain (est : String → ℚ) (maxTok : ℚ) (lines : List String) :
    ∀ (rest : List String) (i : Nat) (cur : List String) (tok : ℚ),
      i ≤ lines.length →
      rest = lines.drop i →
      cur.length ≤ i →
      cur = (lines.drop (i - cur.length)).take cur.length →
      ChunkChain lines (i - cur.length) cur.length
        (splitGo est maxTok rest i cur tok) := by
  intro rest i cur tok
  induction rest generalizing i cur tok with
  | nil =>
    intro hi hrest hlen hcur
    have hieq : i = lines.length := by
      have := List.drop_eq_nil_iff.mp hrest.symm
      omega
    simp only [splitGo]
    by_cases hc : cur = []
    · rw [if_pos hc]
      subst hc
      simp only [ChunkChain, List.length_nil]
      omega
    · rw [if_neg hc]
      have hm : 1 ≤ cur.length := List.length_pos.mpr hc
      refine ⟨cur.length, le_refl _, hm, by omega,
        by show i + 1 - cur.length = i - cur.length + 1; omega,
        by rw [← hcur], by rw [if_pos rfl]; omega⟩
  | cons l rest ih =>
    intro hi hrest hlen hcur
    have hlt : i < lines.length := by
      have := congrArg List.length hrest
      simp [List.length_drop] at this
      omega
    have hgetl : lines[i]? = some l := by
      have h0 : (lines.drop i)[0]? = some l := by rw [← hrest]; simp
      rw [List.getElem?_drop] at h0
      simpa using h0
    have hrest' : rest = lines.drop (i + 1) := by
      have hdd : lines.drop (i + 1) = (lines.drop i).drop 1 := by
        rw [List.drop_drop]
      rw [hdd, ← hrest]
      simp
    have hext : ∀ k : Nat, k ≤ i →
        (lines.drop (i - k)).take k ++ [l] = (lines.drop (i - k)).take (k + 1) := by
      intro k hk
      rw [List.take_succ]
      have hgk : (lines.drop (i - k))[k]? = some l := by
        rw [List.getElem?_drop]
        have hik : i - k + k = i := by omega
        rw [hik, hgetl]
      rw [hgk]
      simp
    simp only [splitGo]
    by_cases hc : tok + est (l ++ "\n") > maxTok ∧ cur ≠ []
    · rw [if_pos hc]
      have hm : 1 ≤ cur.length := List.length_pos.mpr hc.2
      set m := cur.length with hmdef
      have hseed : cur.drop (m - 50) = (lines.drop (i - min 50 m)).take (min 50 m) := by
        conv_lhs => rw [hcur]
        rw [List.drop_take, List.drop_drop]
        have h1 : i - m + (m - 50) = i - min 50 m := by omega
        have h2 : m - (m - 50) = min 50 m := by omega
        rw [h1, h2]
      have hlen' : (cur.drop (m - 50) ++ [l]).length = min 50 m + 1 := by
        simp [List.length_drop]
        omega
      have hcur' : cur.drop (m - 50) ++ [l] =
          (lines.drop (i + 1 - (min 50 m + 1))).take (min 50 m + 1) := by
        have h3 : i + 1 - (min 50 m + 1) = i - min 50 m := by omega
        rw [h3, hseed, hext (min 50 m) (by omega)]
      have hne : splitGo est maxTok rest (i + 1) (cur.drop (m - 50) ++ [l])
          (est (String.intercalate "\n" (cur.drop (m - 50))) + est (l ++ "\n")) ≠ [] :=
        splitGo_ne_nil est maxTok rest (i + 1) _ _ (by simp)
      refine ⟨m, le_refl _, hm, by omega,
        by show i + 1 - m = i - m + 1; omega,
        by rw [← hcur], ?_⟩
      rw [if_neg hne]
      have htail := ih (i + 1) (cur.drop (m - 50) ++ [l])
        (est (String.intercalate "\n" (cur.drop (m - 50))) + est (l ++ "\n"))
        (by omega) hrest' (by rw [hlen']; omega) (by rw [hlen']; exact hcur')
      rw [hlen'] at htail
      have hpos : i + 1 - (min 50 m + 1) = i - m + m - min 50 m := by omega
      rw [hpos] at htail
      exact htail
    · rw [if_neg hc]
      have hlen2 : (cur ++ [l]).length = cur.length + 1 := by simp
      have hcur2 : cur ++ [l] =
          (lines.drop (i + 1 - (cur.length + 1))).take (cur.length + 1) := by
        have h7 : i + 1 - (cur.length + 1) = i - cur.length := by omega
        rw [h7, ← hext cur.length hlen, ← hcur]
      have htail := ih (i + 1) (cur ++ [l]) (tok + est (l ++ "\n"))
        (by omega) hrest' (by rw [hlen2]; omega) (by rw [hlen2]; exact hcur2)
      rw [hlen2] at htail
      have h8 : i + 1 - (cur.length + 1) = i - cur.length := by omega
      rw [h8] at htail
      exact chain_mono lines _ _ _ _ (by omega) htail

/-- Every run of the splitter yields a `ChunkChain` for the whole file. -/
theorem splitCodeIntoChunks_chain (est : String → ℚ) (content : String) (maxTok : ℚ) :
    ChunkChain (splitLines content) 0 0
      (splitCodeIntoChunks est content maxTok) := by
  have h := splitGo_chain est maxTok (splitLines content) (splitLines content) 0 [] 0
    (by omega) (by simp) (by simp) (by simp)
  simpa [splitCodeIntoChunks] using h

/-- The splitter always emits at least one chunk. -/
theorem splitCodeIntoChunks_ne_nil (est : String → ℚ) (content : String) (maxTok : ℚ) :
    splitCodeIntoChunks est content maxTok ≠ [] := by
  intro h
  have hchain := splitCodeIntoChunks_chain est content maxTok
  rw [h] at hchain
  simp only [ChunkChain] at hchain
  exact splitLines_ne_nil content (List.length_eq_zero.mp hchain.symm)

/-- Unpacking `ChunkChain` at a member chunk: it is the join of a
contiguous nonempty slice of the original lines. -/
theorem chain_mem (lines : List String) :
    ∀ (cs : List Chunk) (s lo : Nat), ChunkChain lines s lo cs →
      ∀ c ∈ cs, ∃ s' n, 1 ≤ n ∧ c.startLine = s' + 1 ∧ s' + n ≤ lines.length ∧
        c.content = String.intercalate "\n" ((lines.drop s').take n) := by
  intro cs
  induction cs with
  | nil => intro s lo _ c hc; exact absurd hc (List.not_mem_nil c)
  | cons c0 cs ih =>
    intro s lo h c hc
    obtain ⟨n, _, h1, hle, hstart, hcontent, hrest⟩ := h
    rcases List.mem_cons.mp hc with hceq | hmem
    · subst hceq; exact ⟨s, n, h1, hstart, hle, hcontent⟩
    · cases cs with
      | nil => exact absurd hmem (List.not_mem_nil c)
      | cons c1 cs' =>
        rw [if_neg (by simp)] at hrest
        exact ih _ _ hrest c hmem

/-- Unpacking `ChunkChain` for coverage: every line position from `s` to
the end of the file lies inside some member chunk's slice. -/
theorem chain_coverage (lines : List String) :
    ∀ (cs : List Chunk), cs ≠ [] → ∀ (s lo : Nat), ChunkChain lines s lo cs →
      ∀ j, s ≤ j → j < lines.length →
        ∃ c ∈ cs, ∃ s' n, 1 ≤ n ∧ c.startLine = s' + 1 ∧
          c.content = String.intercalate "\n" ((lines.drop s').take n) ∧
          s' ≤ j ∧ j < s' + n := by
  intro cs
  induction cs with
  | nil => intro h; exact absurd rfl h
  | cons c0 cs ih =>
    intro _ s lo h j hsj hjlt
    obtain ⟨n, _, h1, hle, hstart, hcontent, hrest⟩ := h
    by_cases hj : j < s + n
    · exact ⟨c0, List.mem_cons_self c0 cs, s, n, h1, hstart, hcontent, hsj, hj⟩
    · cases cs with
      | nil =>
        rw [if_pos rfl] at hrest
        omega
      | cons c1 cs' =>
        rw [if_neg (by simp)] at hrest
        obtain ⟨c, hcmem, hrest'⟩ := ih (by simp) _ _ hrest j (by omega) hjlt
        exact ⟨c, List.mem_cons_of_mem c0 hcmem, hrest'⟩

/-! ## Auxiliary facts about `String.intercalate` and score sums -/

theorem intercalate_go_length (s : String) :
    ∀ (as : List String) (acc : String),
      acc.length ≤ (String.intercalate.go acc s as).length := by
  intro as
  induction as with
  | nil => intro acc; simp [String.intercalate.go]
  | cons a as ih =>
    intro acc
    rw [String.intercalate.go]
    calc acc.length ≤ (acc ++ s ++ a).length := by
          simp [String.length_append]
          omega
      _ ≤ _ := ih (acc ++ s ++ a)

theorem intercalate_cons_length (s a : String) (l : List String) :
    a.length ≤ (String.intercalate s (a :: l)).length := by
  rw [String.intercalate]
  exact intercalate_go_length s l a

theorem sum_getD_bounds :
    ∀ (scores : List (Option Int)),
      (∀ s ∈ scores, 0 ≤ s.getD 0 ∧ s.getD 0 ≤ 100) →
      0 ≤ (scores.map (fun s => s.getD 0)).sum ∧
        (scores.map (fun s => s.getD 0)).sum ≤ 100 * (scores.length : Int) := by
  intro scores
  induction scores with
  | nil => intro _; simp
  | cons s ss ih =>
    intro h
    have hs := h s (List.mem_cons_self s ss)
    have hss := ih (fun x hx => h x (List.mem_cons_of_mem s hx))
    simp only [List.map_cons, List.sum_cons, List.length_cons]
    push_cast
    constructor
    · linarith [hs.1, hss.1]
    · linarith [hs.2, hss.2]

/-! ## Claim C1 -/

/-- C1, counterexample.  On the P6 input
`"Sure! ```json\n{"issues":[]}\n```"` the CLI reviewer's Response Parser
(`lib/reviewer.js` `cleanJsonString` followed by `JSON.parse`) does NOT
extract the substring from the first brace to the last brace — the leading
`^```json` regex fails to fire because the string starts with prose, so the
cleaned text still carries `Sure! ```json` — and `JSON.parse` of that text
throws (modelled by `none`), contradicting both halves of the claim. -/
theorem C1_counterexample :
    parseResponseCli "Sure! ```json\n\x7b\"issues\":[]\x7d\n```" = none ∧
    cleanJsonStringAction "Sure! ```json\n\x7b\"issues\":[]\x7d\n```" =
      Except.ok "\x7b\"issues\":[]\x7d" ∧
    cleanJsonString "Sure! ```json\n\x7b\"issues\":[]\x7d\n```" =
      "Sure! ```json\n\x7b\"issues\":[]\x7d" :=
  ⟨rfl, rfl, rfl⟩

/-- C1, amended.  The first-brace-to-last-brace extraction is implemented
by the action-variant reviewer's `cleanJsonString`
(src/unnamed/part_003 lines 192–205), not by the CLI reviewer's; on the P6
input that variant extracts exactly the brace-delimited substring and its
Response Parser returns the object with an empty `issues` array without
throwing. -/
theorem C1_theorem :
    cleanJsonStringAction "Sure! ```json\n\x7b\"issues\":[]\x7d\n```" =
      Except.ok "\x7b\"issues\":[]\x7d" ∧
    parseResponseAction "Sure! ```json\n\x7b\"issues\":[]\x7d\n```" =
      some (Json.obj [("issues", Json.arr [])]) :=
  ⟨rfl, rfl⟩

/-! ## Claim C3 -/

/-- C3.  The aggregated chunk-level score (`aggScore`, line 312 of
`lib/reviewer.js`) is `0` for zero chunk results; for at least one chunk
result it is the arithmetic mean of the chunk scores (a missing score
counting as `0`) rounded half-up to the nearest integer (`Math.round`,
which is Mathlib's `round` on `ℚ`); and whenever every present score lies
in `[0, 100]` the aggregate is an integer in `[0, 100]`. -/
theorem C3_theorem :
    aggScore [] = 0 ∧
    (∀ scores : List (Option Int), scores ≠ [] →
      aggScore scores =
        round ((((scores.map (fun s => s.getD 0)).sum : Int) : ℚ) /
          (scores.length : ℚ))) ∧
    (∀ scores : List (Option Int),
      (∀ s ∈ scores, 0 ≤ s.getD 0 ∧ s.getD 0 ≤ 100) →
      0 ≤ aggScore scores ∧ aggScore scores ≤ 100) := by
  refine ⟨rfl, ?_, ?_⟩
  · intro scores hne
    rw [aggScore, if_neg (by simpa using hne), jsRound, round_eq]
  · intro scores h
    by_cases hnil : scores.length = 0
    · rw [aggScore, if_pos hnil]
      exact ⟨le_refl 0, by norm_num⟩
    · have hsum := sum_getD_bounds scores h
      have hlen : 0 < (scores.length : ℚ) := by
        have : 0 < scores.length := Nat.pos_of_ne_zero hnil
        exact_mod_cast this
      have hfloor : ∀ r : ℚ, 0 ≤ r → r ≤ 100 → 0 ≤ ⌊r + 1 / 2⌋ ∧ ⌊r + 1 / 2⌋ ≤ 100 := by
        intro r h0 h100
        constructor
        · exact Int.le_floor.mpr (by push_cast; linarith)
        · calc ⌊r + 1 / 2⌋ ≤ ⌊(100 : ℚ) + 1 / 2⌋ := Int.floor_le_floor (by linarith)
            _ = 100 := by norm_num
      rw [aggScore, if_neg hnil, jsRound]
      apply hfloor
      · apply div_nonneg _ (le_of_lt hlen)
        exact_mod_cast hsum.1
      · rw [div_le_iff hlen]
        calc (((scores.map (fun s => s.getD 0)).sum : Int) : ℚ)
            ≤ ((100 * (scores.length : Int) : Int) : ℚ) := by exact_mod_cast hsum.2
          _ = 100 * (scores.length : ℚ) := by push_cast; ring

/-- C3, witness: two chunk results, one scored 80 and one unscored. -/
theorem C3_witness :
    (∀ s ∈ ([some 80, none] : List (Option Int)), 0 ≤ s.getD 0 ∧ s.getD 0 ≤ 100) ∧
    (0 ≤ aggScore [some 80, none] ∧ aggScore [some 80, none] ≤ 100) :=
  ⟨by decide, C3_theorem.2.2 [some 80, none] (by decide)⟩

/-! ## Claim C7 -/

/-- C7, counterexample.  For a Gemini model with no Google credential the
estimator (`countTokens`, lines 153–168) returns the exact quotient
`text.length / 4` — for the 7-character text `"abcdefg"` that is `7/4 =
1.75`, not `ceil(7/4) = 2` as the claim states. -/
theorem C7_counterexample :
    countTokens (fun _ => none) (fun _ => 0) (fun _ => 0) "abcdefg"
      "gemini-1.5-pro-latest" = 7 / 4 ∧
    ¬ countTokens (fun _ => none) (fun _ => 0) (fun _ => 0) "abcdefg"
        "gemini-1.5-pro-latest"
      = ((⌈(("abcdefg".length : ℚ)) / 4⌉ : Int) : ℚ) := by
  have hp : providerOf "gemini-1.5-pro-latest" = Provider.google := rfl
  have hlen : ("abcdefg" : String).length = 7 := rfl
  constructor
  · simp [countTokens, hp, hlen]
  · have hceil : ⌈(7 : ℚ) / 4⌉ = 2 := by
      rw [Int.ceil_eq_iff]
      norm_num
    simp only [countTokens, hp, hlen]
    push_cast
    rw [hceil]
    norm_num

/-- C7, amended.  For every text and every Gemini-prefixed model with no
Google credential configured, the token estimate is exactly
`text.length / 4` (JS number division, possibly fractional), not its
ceiling. -/
theorem C7_theorem (getKey : Provider → Option String) (g : String → ℚ)
    (t : String → Nat) (text model : String)
    (hm : providerOf model = Provider.google)
    (hk : getKey Provider.google = none) :
    countTokens getKey g t text model = (text.length : ℚ) / 4 := by
  simp [countTokens, hm, hk]

/-- C7, witness: concrete Gemini model, empty credential store. -/
theorem C7_witness :
    providerOf "gemini-1.5-pro-latest" = Provider.google ∧
    ((fun _ : Provider => (none : Option String)) Provider.google = none) ∧
    countTokens (fun _ => none) (fun _ => 0) (fun _ => 0) "hello"
      "gemini-1.5-pro-latest" = (("hello" : String).length : ℚ) / 4 :=
  ⟨rfl, rfl, C7_theorem (fun _ => none) (fun _ => 0) (fun _ => 0) "hello"
    "gemini-1.5-pro-latest" rfl rfl⟩

/-! ## Claim C8 -/

/-- C8, counterexample.  One chunk result with no summary: the JS template
literal stringifies `undefined`, so the aggregate (line 313) is
`"Chunk 1: undefined"` — a non-empty, hence truthy, string — and the fixed
fallback is NOT produced even though no chunk produced a summary. -/
theorem C8_counterexample :
    aggSummary [none] = "Chunk 1: undefined" ∧
    "Chunk 1: undefined" ≠ "Review completed for large file." :=
  ⟨rfl, by decide⟩

/-- C8, amended.  The aggregated summary is the newline-join of each
chunk's summary prefixed with its 1-based index, with an absent summary
rendered as the string `"undefined"`; the fixed fallback
`"Review completed for large file."` appears exactly when there are zero
chunk results (the joined string is empty and hence falsy). -/
theorem C8_theorem :
    aggSummary [] = "Review completed for large file." ∧
    (∀ ss : List (Option String), ss ≠ [] →
      aggSummary ss = String.intercalate "\n"
        (ss.enum.map (fun p => "Chunk " ++ toString (p.1 + 1) ++ ": " ++ jsShow p.2))) ∧
    (∀ ss : List String,
      aggSummary (ss.map Option.some) =
        if ss = [] then "Review completed for large file."
        else String.intercalate "\n"
          (ss.enum.map (fun p => "Chunk " ++ toString (p.1 + 1) ++ ": " ++ p.2))) := by
  have hmain : ∀ ss : List (Option String), ss ≠ [] →
      aggSummary ss = String.intercalate "\n"
        (ss.enum.map (fun p => "Chunk " ++ toString (p.1 + 1) ++ ": " ++ jsShow p.2)) := by
    intro ss hne
    match ss with
    | [] => exact absurd rfl hne
    | o :: ss' =>
      have hjoined : String.intercalate "\n" ((o :: ss').enum.map
          (fun p => "Chunk " ++ toString (p.1 + 1) ++ ": " ++ jsShow p.2)) ≠ "" := by
        intro hempty
        have hform : ((o :: ss').enum.map
            (fun p => "Chunk " ++ toString (p.1 + 1) ++ ": " ++ jsShow p.2)) =
            ("Chunk " ++ toString (0 + 1) ++ ": " ++ jsShow o) ::
              ((ss'.enumFrom 1).map
                (fun p => "Chunk " ++ toString (p.1 + 1) ++ ": " ++ jsShow p.2)) := by
          rw [List.enum_cons]
          rfl
        rw [hform] at hempty
        have hlen := intercalate_cons_length "\n"
          ("Chunk " ++ toString (0 + 1) ++ ": " ++ jsShow o)
          ((ss'.enumFrom 1).map
            (fun p => "Chunk " ++ toString (p.1 + 1) ++ ": " ++ jsShow p.2))
        rw [hempty] at hlen
        have h6 : ("Chunk " : String).length = 6 := rfl
        simp [String.length_append, h6] at hlen
      simp only [aggSummary]
      rw [if_neg hjoined]
  refine ⟨rfl, hmain, ?_⟩
  intro ss
  by_cases h : ss = []
  · subst h
    rw [List.map_nil, if_pos rfl]
    rfl
  · rw [if_neg h, hmain (ss.map Option.some) (by simpa using h)]
    congr 1
    rw [List.enum_map, List.map_map]
    apply List.map_congr_left
    intro p _
    cases p with
    | mk i x => simp [jsShow, Prod.map, Function.comp]

/-- C8, witness: a single chunk that did produce a summary. -/
theorem C8_witness :
    ([some "ok"] : List (Option String)) ≠ [] ∧
    aggSummary [some "ok"] = String.intercalate "\n"
      (([some "ok"] : List (Option String)).enum.map
        (fun p => "Chunk " ++ toString (p.1 + 1) ++ ": " ++ jsShow p.2)) :=
  ⟨by decide, C8_theorem.2.1 [some "ok"] (by decide)⟩

/-! ## Claim C4 -/

/-- C4.  For every content string and positive token budget, the splitter
emits a non-empty chunk sequence (the final partial chunk is always
emitted); the chunks form a `ChunkChain`: each chunk is the join of a
contiguous slice of the original lines, the first slice starts at line 1,
every later chunk begins with the last `min 50 n` lines of its `n`-line
predecessor (its startLine is the predecessor's startLine plus
`n - min 50 n`, and it is long enough to contain the seed), and the last
slice ends at the file's last line; consequently every original line
appears, in original order, in some chunk. -/
theorem C4_theorem (est : String → ℚ) (content : String) (maxTok : ℚ)
    (hmax : 0 < maxTok) :
    splitCodeIntoChunks est content maxTok ≠ [] ∧
    ChunkChain (splitLines content) 0 0 (splitCodeIntoChunks est content maxTok) ∧
    (∀ j, j < (splitLines content).length →
      ∃ c ∈ splitCodeIntoChunks est content maxTok, ∃ s' n, 1 ≤ n ∧
        c.startLine = s' + 1 ∧
        c.content = String.intercalate "\n" (((splitLines content).drop s').take n) ∧
        s' ≤ j ∧ j < s' + n) := by
  refine ⟨splitCodeIntoChunks_ne_nil est content maxTok,
    splitCodeIntoChunks_chain est content maxTok, ?_⟩
  intro j hj
  exact chain_coverage (splitLines content) _
    (splitCodeIntoChunks_ne_nil est content maxTok) 0 0
    (splitCodeIntoChunks_chain est content maxTok) j (Nat.zero_le j) hj

/-- C4, witness: a two-line file under a positive budget. -/
theorem C4_witness :
    (0 : ℚ) < 5 ∧
    (splitCodeIntoChunks (fun _ => 0) "a\nb" 5 ≠ [] ∧
     ChunkChain (splitLines "a\nb") 0 0 (splitCodeIntoChunks (fun _ => 0) "a\nb" 5) ∧
     (∀ j, j < (splitLines "a\nb").length →
       ∃ c ∈ splitCodeIntoChunks (fun _ => 0) "a\nb" 5, ∃ s' n, 1 ≤ n ∧
         c.startLine = s' + 1 ∧
         c.content = String.intercalate "\n" (((splitLines "a\nb").drop s').take n) ∧
         s' ≤ j ∧ j < s' + n)) :=
  ⟨by norm_num, C4_theorem (fun _ => 0) "a\nb" 5 (by norm_num)⟩

/-! ## Claim C9 -/

/-- C9, counterexample.  With a constant estimate of 10 tokens per line
and a budget of 4, the middle line `"bb"` of `"aa\nbb\ncc"` has its own
estimate above the budget, yet NO emitted chunk holds that line alone: the
close-then-seed order of lines 181–194 places the oversized line after the
overlap seed of the previous chunk, so the chunks are `"aa"`, `"aa\nbb"`,
`"aa\nbb\ncc"`. -/
theorem C9_counterexample :
    (fun _ : String => (10 : ℚ)) ("bb" ++ "\n") > 4 ∧
    splitCodeIntoChunks (fun _ => 10) "aa\nbb\ncc" 4 =
      [⟨"aa", 1⟩, ⟨"aa\nbb", 1⟩, ⟨"aa\nbb\ncc", 1⟩] ∧
    (∀ c ∈ splitCodeIntoChunks (fun _ => 10) "aa\nbb\ncc" 4, c.content ≠ "bb") := by
  have hsplit : splitCodeIntoChunks (fun _ => 10) "aa\nbb\ncc" 4 =
      [⟨"aa", 1⟩, ⟨"aa\nbb", 1⟩, ⟨"aa\nbb\ncc", 1⟩] := by
    norm_num [splitCodeIntoChunks, splitGo, splitLines, splitLinesAux] <;> decide
  refine ⟨by norm_num, hsplit, ?_⟩
  rw [hsplit]
  decide

/-- C9, amended.  The splitter never breaks a line in the middle — every
chunk is the newline-join of a contiguous slice of the original lines —
and an oversized line is placed alone in its own chunk only when it is the
file's FIRST line (there is then no previous chunk to seed an overlap);
otherwise it shares its chunk with the seed lines of the preceding
chunk. -/
theorem C9_theorem (est : String → ℚ) (content : String) (maxTok : ℚ)
    (l0 : String) (rest : List String) (hsplit : splitLines content = l0 :: rest)
    (hbig : est (l0 ++ "\n") > maxTok) (hpos : ∀ s, 0 ≤ est s) :
    (splitCodeIntoChunks est content maxTok).head? = some ⟨l0, 1⟩ ∧
    (∀ c ∈ splitCodeIntoChunks est content maxTok, ∃ s' n, 1 ≤ n ∧
      c.startLine = s' + 1 ∧
      c.content = String.intercalate "\n" (((splitLines content).drop s').take n)) := by
  constructor
  · rw [splitCodeIntoChunks, hsplit]
    have h1 : ¬((0 : ℚ) + est (l0 ++ "\n") > maxTok ∧ ([] : List String) ≠ []) := by
      simp
    cases rest with
    | nil =>
      simp only [splitGo]
      rw [if_neg h1]
      rfl
    | cons l1 rest' =>
      simp only [splitGo]
      rw [if_neg h1]
      have h2 : (0 : ℚ) + est (l0 ++ "\n") + est (l1 ++ "\n") > maxTok ∧
          ([] : List String) ++ [l0] ≠ [] := by
        refine ⟨?_, by simp⟩
        have := hpos (l1 ++ "\n")
        linarith
      rw [if_pos h2]
      rfl
  · intro c hc
    obtain ⟨s', n, h1, hstart, _, hcontent⟩ := chain_mem (splitLines content) _ 0 0
      (splitCodeIntoChunks_chain est content maxTok) c hc
    exact ⟨s', n, h1, hstart, hcontent⟩

/-- C9, witness for the amended statement: a file whose first line is
oversized. -/
theorem C9_witness :
    splitLines "zz\nw" = ["zz", "w"] ∧
    (fun _ : String => (10 : ℚ)) ("zz" ++ "\n") > 4 ∧
    ((splitCodeIntoChunks (fun _ => 10) "zz\nw" 4).head? = some ⟨"zz", 1⟩ ∧
     (∀ c ∈ splitCodeIntoChunks (fun _ => 10) "zz\nw" 4, ∃ s' n, 1 ≤ n ∧
       c.startLine = s' + 1 ∧
       c.content = String.intercalate "\n" (((splitLines "zz\nw").drop s').take n))) :=
  ⟨rfl, by norm_num,
    C9_theorem (fun _ => 10) "zz\nw" 4 "zz" ["w"] rfl (by norm_num)
      (fun _ => by norm_num)⟩

/-! ## Claim C2 -/

theorem fieldArr_adjust (fk : FieldKind) (S : Nat) (r : ChunkResult) :
    fieldArr fk (adjustResult S r) = (fieldArr fk r).map (adjustItem S) := by
  obtain ⟨d, iss, sg, gp, fx, sc, su⟩ := r
  cases fk
  case dangers => cases d <;> rfl
  case issues => cases iss <;> rfl
  case suggestions => cases sg <;> rfl
  case goodPractices => cases gp <;> rfl
  case fixes => cases fx <;> rfl

theorem fieldArr_aggregate (fk : FieldKind) (rs : List ChunkResult) :
    fieldArr fk (aggregateChunkReviews rs) = (rs.map (fieldArr fk)).flatten := by
  cases fk <;> rfl

/-- C2.  For every chunk produced by the splitter and every parsed chunk
result, an item with (1-based, hence truthy) line `l` in any finding/fix
array is shifted by the adjustment loop (lines 289–298) to line
`l + startLine - 1`; the shifted item survives into the aggregated arrays
(lines 306–311), which concatenate the adjusted chunk results; and
`l + startLine - 1` is the correct absolute coordinate: the chunk's
content is the join of the original lines starting at index
`startLine - 1`, whose `j`-th line is original line `startLine - 1 + j`. -/
theorem C2_theorem (est : String → ℚ) (content : String) (maxTok : ℚ)
    (c : Chunk) (hc : c ∈ splitCodeIntoChunks est content maxTok)
    (r : ChunkResult) (fk : FieldKind) (it : Item) (l : Int)
    (hmem : it ∈ fieldArr fk r) (hline : it.line = some l) (hl : 1 ≤ l) :
    ((⟨some (l + (c.startLine : Int) - 1), it.payload⟩ : Item) ∈
        fieldArr fk (adjustResult c.startLine r)) ∧
    (∀ rs : List ChunkResult, adjustResult c.startLine r ∈ rs →
      (⟨some (l + (c.startLine : Int) - 1), it.payload⟩ : Item) ∈
        fieldArr fk (aggregateChunkReviews rs)) ∧
    (∃ s' n, 1 ≤ n ∧ c.startLine = s' + 1 ∧
      s' + n ≤ (splitLines content).length ∧
      c.content = String.intercalate "\n" (((splitLines content).drop s').take n) ∧
      ∀ j, j < n → (((splitLines content).drop s').take n)[j]? =
        (splitLines content)[s' + j]?) := by
  have hadj : adjustItem c.startLine it =
      ⟨some (l + (c.startLine : Int) - 1), it.payload⟩ := by
    simp only [adjustItem, hline]
    rw [if_pos (by omega : l ≠ 0)]
  have hpart1 : (⟨some (l + (c.startLine : Int) - 1), it.payload⟩ : Item) ∈
      fieldArr fk (adjustResult c.startLine r) := by
    rw [fieldArr_adjust]
    rw [← hadj]
    exact List.mem_map_of_mem (adjustItem c.startLine) hmem
  refine ⟨hpart1, ?_, ?_⟩
  · intro rs hrs
    rw [fieldArr_aggregate]
    exact List.mem_flatten.mpr
      ⟨fieldArr fk (adjustResult c.startLine r),
        List.mem_map_of_mem (fieldArr fk) hrs, hpart1⟩
  · obtain ⟨s', n, h1, hstart, hle, hcontent⟩ := chain_mem (splitLines content) _ 0 0
      (splitCodeIntoChunks_chain est content maxTok) c hc
    exact ⟨s', n, h1, hstart, hle, hcontent, fun j hj => slice_get _ s' n j hj⟩

/-- C2, witness: a finding at relative line 2 of the only chunk of a
two-line file. -/
theorem C2_witness :
    ((⟨"a\nb", 1⟩ : Chunk) ∈ splitCodeIntoChunks (fun _ => 0) "a\nb" 5) ∧
    ((⟨some 2, "x"⟩ : Item) ∈ fieldArr FieldKind.issues
      (⟨none, some [⟨some 2, "x"⟩], none, none, none, none, none⟩ : ChunkResult)) ∧
    ((⟨some (2 + ((⟨"a\nb", 1⟩ : Chunk).startLine : Int) - 1), "x"⟩ : Item) ∈
      fieldArr FieldKind.issues (adjustResult (⟨"a\nb", 1⟩ : Chunk).startLine
        (⟨none, some [⟨some 2, "x"⟩], none, none, none, none, none⟩ : ChunkResult))) := by
  have hone : splitCodeIntoChunks (fun _ => 0) "a\nb" 5 = [⟨"a\nb", 1⟩] := by
    norm_num [splitCodeIntoChunks, splitGo, splitLines, splitLinesAux] <;> decide
  have hc : (⟨"a\nb", 1⟩ : Chunk) ∈ splitCodeIntoChunks (fun _ => 0) "a\nb" 5 := by
    rw [hone]
    exact List.mem_singleton.mpr rfl
  have hmem : (⟨some 2, "x"⟩ : Item) ∈ fieldArr FieldKind.issues
      (⟨none, some [⟨some 2, "x"⟩], none, none, none, none, none⟩ : ChunkResult) := by
    decide
  exact ⟨hc, hmem,
    (C2_theorem (fun _ => 0) "a\nb" 5 ⟨"a\nb", 1⟩ hc _ FieldKind.issues
      ⟨some 2, "x"⟩ 2 hmem rfl (by norm_num)).1⟩

/-! ## Invariants of the orchestrator loop -/

theorem adjust_gp_nil (S : Nat) (r : ChunkResult)
    (h : r.good_practices.getD [] = []) :
    (adjustResult S r).good_practices.getD [] = [] := by
  cases hg : r.good_practices with
  | none => simp [adjustResult, hg]
  | some xs =>
    rw [hg] at h
    simp only [Option.getD_some] at h
    subst h
    simp [adjustResult, hg]

theorem aggregate_gp_nil (rs : List ChunkResult)
    (h : ∀ r ∈ rs, r.good_practices.getD [] = []) :
    (aggregateChunkReviews rs).good_practices.getD [] = [] := by
  have hval : (aggregateChunkReviews rs).good_practices =
      some ((rs.map (fun r => r.good_practices.getD [])).flatten) := rfl
  rw [hval, Option.getD_some, List.flatten_eq_nil_iff]
  intro xs hxs
  obtain ⟨r, hr, rfl⟩ := List.mem_map.mp hxs
  exact h r hr

theorem runChunks_events (env : ReviewEnv) (prompt : PromptKind) :
    ∀ (cs : List Chunk) (idx : Nat),
      ∀ e ∈ (runChunks env prompt cs idx).2.2, e = Event.modelCall prompt := by
  intro cs
  induction cs with
  | nil => intro idx e he; simp [runChunks] at he
  | cons c cs ih =>
    intro idx e he
    simp only [runChunks] at he
    cases hcall : env.calls idx with
    | netError =>
      rw [hcall] at he
      simp only [List.mem_cons] at he
      rcases he with he | he
      · exact he
      · exact ih (idx + 1) e he
    | reply parsed =>
      rw [hcall] at he
      simp only [List.mem_cons] at he
      rcases he with he | he
      · exact he
      · exact ih (idx + 1) e he

theorem runChunks_gp (env : ReviewEnv) (prompt : PromptKind)
    (hgp : ∀ n r, env.calls n = CallOutcome.reply (some r) →
      r.good_practices.getD [] = []) :
    ∀ (cs : List Chunk) (idx : Nat),
      ∀ r' ∈ (runChunks env prompt cs idx).1, r'.good_practices.getD [] = [] := by
  intro cs
  induction cs with
  | nil => intro idx r' hr'; simp [runChunks] at hr'
  | cons c cs ih =>
    intro idx r' hr'
    simp only [runChunks] at hr'
    cases hcall : env.calls idx with
    | netError =>
      rw [hcall] at hr'
      exact ih (idx + 1) r' hr'
    | reply parsed =>
      rw [hcall] at hr'
      simp only [List.mem_cons] at hr'
      rcases hr' with hr' | hr'
      · subst hr'
        apply adjust_gp_nil
        cases parsed with
        | none => rfl
        | some r0 => exact hgp idx r0 hcall
      · exact ih (idx + 1) r' hr'

theorem reviewLoop_events (env : ReviewEnv) (prompt : PromptKind) (model : String)
    (maxTokens total : Nat) :
    ∀ (files : List SourceFile) (pos idx : Nat),
      ∀ e ∈ (reviewLoop env prompt model maxTokens total files pos idx).2.2,
        e = Event.modelCall prompt ∨ ∃ a b, e = Event.progress a b := by
  intro files
  induction files with
  | nil => intro pos idx e he; simp [reviewLoop] at he
  | cons file fs ih =>
    intro pos idx e he
    simp only [reviewLoop] at he
    by_cases hbig : countTokens env.getApiKey env.googleCount env.tiktokenCount
        file.content model > (maxTokens : ℚ) * (9 / 10)
    · rw [if_pos hbig] at he
      simp only [List.mem_append, List.mem_cons] at he
      rcases he with he | he | he
      · exact Or.inl (runChunks_events env prompt _ idx e he)
      · exact Or.inr ⟨pos + 1, total, he⟩
      · exact ih (pos + 1) _ e he
    · rw [if_neg hbig] at he
      cases hcall : env.calls idx with
      | netError =>
        rw [hcall] at he
        simp only [List.mem_cons] at he
        rcases he with he | he | he
        · exact Or.inl he
        · exact Or.inr ⟨pos + 1, total, he⟩
        · exact ih (pos + 1) (idx + 1) e he
      | reply parsed =>
        rw [hcall] at he
        simp only [List.mem_cons] at he
        rcases he with he | he | he
        · exact Or.inl he
        · exact Or.inr ⟨pos + 1, total, he⟩
        · exact ih (pos + 1) (idx + 1) e he

theorem reviewLoop_gp (env : ReviewEnv) (prompt : PromptKind) (model : String)
    (maxTokens total : Nat)
    (hgp : ∀ n r, env.calls n = CallOutcome.reply (some r) →
      r.good_practices.getD [] = []) :
    ∀ (files : List SourceFile) (pos idx : Nat),
      ∀ fr ∈ (reviewLoop env prompt model maxTokens total files pos idx).1,
        fr.good_practices.getD [] = [] := by
  intro files
  induction files with
  | nil => intro pos idx fr hfr; simp [reviewLoop] at hfr
  | cons file fs ih =>
    intro pos idx fr hfr
    simp only [reviewLoop] at hfr
    by_cases hbig : countTokens env.getApiKey env.googleCount env.tiktokenCount
        file.content model > (maxTokens : ℚ) * (9 / 10)
    · rw [if_pos hbig] at hfr
      simp only [List.mem_cons] at hfr
      rcases hfr with hfr | hfr
      · subst hfr
        exact aggregate_gp_nil _ (runChunks_gp env prompt hgp _ idx)
      · exact ih (pos + 1) _ fr hfr
    · rw [if_neg hbig] at hfr
      cases hcall : env.calls idx with
      | netError =>
        rw [hcall] at hfr
        exact ih (pos + 1) (idx + 1) fr hfr
      | reply parsed =>
        rw [hcall] at hfr
        simp only [List.mem_cons] at hfr
        rcases hfr with hfr | hfr
        · subst hfr
          cases parsed with
          | none => rfl
          | some r0 => exact hgp idx r0 hcall
        · exact ih (pos + 1) (idx + 1) fr hfr

/-! ## Claim C6 -/

/-- C6.  If no API key is resolvable for the provider derived from the
model name, `performReview` throws `MissingCredentialError` before
anything else: the trace is empty, so no model call is made and
`onProgress` is never invoked, and no (partial) ReviewResult is
produced. -/
theorem C6_theorem (env : ReviewEnv) (files : List SourceFile) (model : String)
    (isSingleFile isDiffReview : Bool)
    (hkey : env.getApiKey (providerOf model) = none) :
    performReview env files model isSingleFile isDiffReview =
      (Except.error (ReviewError.missingCredential (providerOf model)), []) := by
  rw [performReview, if_pos (by rw [hkey]; rfl)]

def envNoKey : ReviewEnv :=
  ⟨fun _ => none, fun _ => 0, fun _ => 0, fun _ => CallOutcome.netError, ""⟩

/-- C6, witness: an environment with no stored keys at all. -/
theorem C6_witness :
    envNoKey.getApiKey (providerOf "gpt-4o") = none ∧
    performReview envNoKey [⟨"a.js", "x", none⟩] "gpt-4o" false false =
      (Except.error (ReviewError.missingCredential (providerOf "gpt-4o")), []) :=
  ⟨rfl, C6_theorem envNoKey [⟨"a.js", "x", none⟩] "gpt-4o" false false rfl⟩

/-- Shape of a successful `performReview` run: the returned files are
exactly the loop's results, and every emitted event is a loop event or the
final summary-generation call. -/
theorem performReview_shape (env : ReviewEnv) (files : List SourceFile)
    (model : String) (s d : Bool) (res : ReviewResult) (evs : List Event)
    (h : performReview env files model s d = (Except.ok res, evs)) :
    res.files = (reviewLoop env (selectPrompt s d) model
      ((CONTEXT_WINDOWS model).getD 2048) files.length files 0 0).1 ∧
    ∀ e ∈ evs, e ∈ (reviewLoop env (selectPrompt s d) model
      ((CONTEXT_WINDOWS model).getD 2048) files.length files 0 0).2.2 ∨
      e = Event.summaryCall := by
  rw [performReview] at h
  by_cases hkey : (env.getApiKey (providerOf model)).getD "" = ""
  · rw [if_pos hkey] at h
    simp only [Prod.mk.injEq] at h
    exact absurd h.1 (by simp)
  · rw [if_neg hkey] at h
    cases s with
    | true =>
      rw [if_pos rfl] at h
      simp only [Prod.mk.injEq, Except.ok.injEq] at h
      obtain ⟨h1, h2⟩ := h
      constructor
      · rw [← h1]
      · intro e he
        rw [← h2] at he
        exact Or.inl he
    | false =>
      rw [if_neg (by simp)] at h
      by_cases hlen : (reviewLoop env (selectPrompt false d) model
          ((CONTEXT_WINDOWS model).getD 2048) files.length files 0 0).1.length > 0
      · rw [if_pos hlen] at h
        simp only [Prod.mk.injEq, Except.ok.injEq] at h
        obtain ⟨h1, h2⟩ := h
        constructor
        · rw [← h1]
        · intro e he
          rw [← h2] at he
          rcases List.mem_append.mp he with he | he
          · exact Or.inl he
          · simp only [List.mem_singleton] at he
            exact Or.inr he
      · rw [if_neg hlen] at h
        simp only [Prod.mk.injEq, Except.ok.injEq] at h
        obtain ⟨h1, h2⟩ := h
        constructor
        · rw [← h1]
        · intro e he
          rw [← h2] at he
          exact Or.inl he

/-! ## Claim C5 -/

def envC5 : ReviewEnv :=
  ⟨fun _ => some "key", fun _ => 0, fun _ => 1,
   fun _ => CallOutcome.reply
     (some ⟨none, none, none, some [⟨some 3, "nice"⟩], none, none, none⟩),
   "exec summary"⟩

/-- C5, counterexample.  A diff-mode review of one small file whose model
response carries a `good_practices` entry: the orchestrator spreads the
parsed result into the FileReview unmodified (line 347), so the returned
review's `good_practices` is the non-empty array the model produced —
the core never strips it, refuting "empty regardless of what the model
output contains". -/
theorem C5_counterexample :
    ((performReview envC5 [⟨"f.js", "x", none⟩] "gpt-4" false true).1.map
      (fun r => r.files.map (fun fr => fr.good_practices))) =
      Except.ok [some [⟨some 3, "nice"⟩]] ∧
    some [(⟨some 3, "nice"⟩ : Item)] ≠ some ([] : List Item) := by
  refine ⟨?_, by decide⟩
  have hprov : providerOf "gpt-4" = Provider.openai := rfl
  have hkc : ¬ ((envC5.getApiKey Provider.openai).getD "" = "") := by decide
  have hcw : (CONTEXT_WINDOWS "gpt-4").getD 2048 = 8192 := rfl
  have hct : countTokens envC5.getApiKey envC5.googleCount envC5.tiktokenCount
      (⟨"f.js", "x", none⟩ : SourceFile).content "gpt-4" = 1 := rfl
  have hbig : ¬ (countTokens envC5.getApiKey envC5.googleCount envC5.tiktokenCount
      (⟨"f.js", "x", none⟩ : SourceFile).content "gpt-4"
      > (((CONTEXT_WINDOWS "gpt-4").getD 2048 : Nat) : ℚ) * (9 / 10)) := by
    rw [hct, hcw]
    norm_num
  simp only [performReview, hprov]
  rw [if_neg hkc]
  simp only [reviewLoop]
  rw [if_neg hbig]
  rfl

/-- C5, amended.  When `isDiffReview = true` every model call of the run
uses the diff prompt (selected with top precedence, lines 241–248; it
instructs the model to omit `good_practices`); the field itself is passed
through unmodified, so every FileReview's `good_practices` array is
empty (or absent) exactly when the model output carried no
`good_practices` entries. -/
theorem C5_theorem (env : ReviewEnv) (files : List SourceFile) (model : String)
    (isSingleFile : Bool) (res : ReviewResult) (evs : List Event)
    (hgp : ∀ n r, env.calls n = CallOutcome.reply (some r) →
      r.good_practices.getD [] = [])
    (h : performReview env files model isSingleFile true = (Except.ok res, evs)) :
    (∀ e ∈ evs, ∀ p, e = Event.modelCall p → p = PromptKind.diff) ∧
    (∀ fr ∈ res.files, fr.good_practices.getD [] = []) := by
  obtain ⟨hfiles, hevs⟩ := performReview_shape env files model isSingleFile true res evs h
  have hprompt : selectPrompt isSingleFile true = PromptKind.diff := by
    cases isSingleFile <;> rfl
  constructor
  · intro e he p hep
    rcases hevs e he with hin | hsum
    · rcases reviewLoop_events env (selectPrompt isSingleFile true) model
        ((CONTEXT_WINDOWS model).getD 2048) files.length files 0 0 e hin with
        hm | ⟨a, b, hprog⟩
      · rw [hep, hprompt] at hm
        simpa using hm
      · rw [hep] at hprog
        exact Event.noConfusion hprog
    · rw [hep] at hsum
      exact Event.noConfusion hsum
  · intro fr hfr
    rw [hfiles] at hfr
    exact reviewLoop_gp env (selectPrompt isSingleFile true) model
      ((CONTEXT_WINDOWS model).getD 2048) files.length hgp files 0 0 fr hfr

def envOk : ReviewEnv :=
  ⟨fun _ => some "key", fun _ => 0, fun _ => 1,
   fun _ => CallOutcome.reply none, "exec summary"⟩

/-- C5, witness: a diff-mode single-file run whose (parse-failed) model
response carries nothing, evaluated end to end. -/
theorem C5_witness :
    (∀ n r, envOk.calls n = CallOutcome.reply (some r) →
      r.good_practices.getD [] = []) ∧
    ((∀ e ∈ [Event.modelCall PromptKind.diff, Event.progress 1 1],
        ∀ p, e = Event.modelCall p → p = PromptKind.diff) ∧
     (∀ fr ∈ (⟨[⟨"f.js", none, none, none, none, none, none, none, none⟩],
          none, none⟩ : ReviewResult).files,
        fr.good_practices.getD [] = [])) := by
  have hgp : ∀ n r, envOk.calls n = CallOutcome.reply (some r) →
      r.good_practices.getD [] = [] := by
    intro n r hr
    simp [envOk] at hr
  have hprov : providerOf "gpt-4" = Provider.openai := rfl
  have hkc : ¬ ((envOk.getApiKey Provider.openai).getD "" = "") := by decide
  have hcw : (CONTEXT_WINDOWS "gpt-4").getD 2048 = 8192 := rfl
  have hct : countTokens envOk.getApiKey envOk.googleCount envOk.tiktokenCount
      (⟨"f.js", "x", none⟩ : SourceFile).content "gpt-4" = 1 := rfl
  have hbig : ¬ (countTokens envOk.getApiKey envOk.googleCount envOk.tiktokenCount
      (⟨"f.js", "x", none⟩ : SourceFile).content "gpt-4"
      > (((CONTEXT_WINDOWS "gpt-4").getD 2048 : Nat) : ℚ) * (9 / 10)) := by
    rw [hct, hcw]
    norm_num
  have hfull : performReview envOk [⟨"f.js", "x", none⟩] "gpt-4" true true =
      (Except.ok ⟨[⟨"f.js", none, none, none, none, none, none, none, none⟩],
        none, none⟩,
       [Event.modelCall PromptKind.diff, Event.progress 1 1]) := by
    simp only [performReview, hprov]
    rw [if_neg hkc]
    simp only [reviewLoop]
    rw [if_neg hbig]
    rfl
  exact ⟨hgp, C5_theorem envOk [⟨"f.js", "x", none⟩] "gpt-4" true _ _ hgp hfull⟩

/-! ## Claim C10 -/

/-- C10.  A non-single-file run that produced zero FileReviews returns
exactly the record with empty `files`, the hardcoded placeholder summary
`"Overall review summary across all files."` and score 0, and the
secondary summary-generation call never happens (lines 356–371: the
`reviewResults.length > 0` guard skips both the recomputation and
`generateOverallSummary`). -/
theorem C10_theorem (env : ReviewEnv) (files : List SourceFile) (model : String)
    (isDiffReview : Bool) (res : ReviewResult) (evs : List Event)
    (h : performReview env files model false isDiffReview = (Except.ok res, evs))
    (hempty : res.files = []) :
    res = ⟨[], some "Overall review summary across all files.", some 0⟩ ∧
    Event.summaryCall ∉ evs := by
  rw [performReview] at h
  by_cases hkey : (env.getApiKey (providerOf model)).getD "" = ""
  · rw [if_pos hkey] at h
    simp only [Prod.mk.injEq] at h
    exact absurd h.1 (by simp)
  · rw [if_neg hkey] at h
    rw [if_neg (by simp)] at h
    by_cases hlen : (reviewLoop env (selectPrompt false isDiffReview) model
        ((CONTEXT_WINDOWS model).getD 2048) files.length files 0 0).1.length > 0
    · rw [if_pos hlen] at h
      simp only [Prod.mk.injEq, Except.ok.injEq] at h
      exfalso
      rw [← h.1] at hempty
      have hnil : (reviewLoop env (selectPrompt false isDiffReview) model
          ((CONTEXT_WINDOWS model).getD 2048) files.length files 0 0).1 = [] := hempty
      rw [hnil] at hlen
      simp at hlen
    · rw [if_neg hlen] at h
      simp only [Prod.mk.injEq, Except.ok.injEq] at h
      obtain ⟨h1, h2⟩ := h
      have hnil : (reviewLoop env (selectPrompt false isDiffReview) model
          ((CONTEXT_WINDOWS model).getD 2048) files.length files 0 0).1 = [] := by
        rw [← h1] at hempty
        exact hempty
      constructor
      · rw [← h1, hnil]
      · rw [← h2]
        intro hmem
        rcases reviewLoop_events env (selectPrompt false isDiffReview) model
          ((CONTEXT_WINDOWS model).getD 2048) files.length files 0 0
          Event.summaryCall hmem with hm | ⟨a, b, hp⟩
        · exact Event.noConfusion hm
        · exact Event.noConfusion hp

/-- C10, witness: the empty files input with a configured key. -/
theorem C10_witness :
    performReview envOk [] "gpt-4o" false false =
      (Except.ok ⟨[], some "Overall review summary across all files.", some 0⟩, []) ∧
    ((⟨[], some "Overall review summary across all files.", some 0⟩ : ReviewResult) =
        ⟨[], some "Overall review summary across all files.", some 0⟩ ∧
      Event.summaryCall ∉ ([] : List Event)) :=
  ⟨rfl, C10_theorem envOk [] "gpt-4o" false
    ⟨[], some "Overall review summary across all files.", some 0⟩ [] rfl rfl⟩

end Lucai
